import Mathlib

/-!
Shallow embedding of the k-bucket routing table of src/src/lib.rs.

Time is modelled by a natural-number clock: every operation receives the
current instant as an explicit parameter, and Instant.elapsed is the
truncated subtraction now - instant.  Distances are embedded as natural
numbers (the source instantiates Distance with an unsigned 512-bit
integer).  ArrayVec operations that can panic (remove on an empty vector,
push on a full one, index out of bounds) are modelled with Option, none
standing for a panic.  Rust's stable sort_by is modelled by insertion
sort with the same comparator: a stable sort with respect to a total
preorder has a unique output, so the two agree.
-/

namespace KBuckets

/-- Constant MAX_NODES_PER_BUCKET of the source: capacity of one bucket. -/
def MAX_NODES_PER_BUCKET : Nat := 20

/-- Entry of a bucket: an identifier with its associated value. -/
structure Node (Id Val : Type) where
  id : Id
  value : Val
deriving DecidableEq

/-- One k-bucket: recency-ordered nodes (front = oldest), an optional
pending node stored with the instant it became pending, and the
last-update instant. -/
structure KBucket (Id Val : Type) where
  nodes : List (Node Id Val)
  pending_node : Option (Node Id Val × Nat)
  last_update : Nat
deriving DecidableEq

/-- Operations of the KBucketsPeerId trait, with the Distance type
embedded as Nat. -/
structure PeerIdCap (Id : Type) where
  distance_with : Id → Id → Nat
  num_bits : Nat
  leading_zeros : Nat → Nat

/-- The routing table: local id, one bucket per bit of the identifier
width, and the ping timeout. -/
structure KBucketsTable (Id Val : Type) where
  my_id : Id
  tables : List (KBucket Id Val)
  ping_timeout : Nat
deriving DecidableEq

/-- Return value of the update method. -/
inductive UpdateOutcome (Id Val : Type) where
  | Added
  | Refreshed (old : Val)
  | NeedPing (id : Id)
  | Discarded
  | FailSelfUpdate
deriving DecidableEq

variable {Id Val : Type} {α : Type}

/-- Method KBucket.flush: if the pending node has waited at least the
timeout, drop the front node and append the pending node at the back;
otherwise keep everything.  none models the ArrayVec panics. -/
def KBucket.flush (b : KBucket Id Val) (timeout now : Nat) : Option (KBucket Id Val) :=
  match b.pending_node with
  | none => some b
  | some (pending, instant) =>
    if timeout ≤ now - instant then
      match b.nodes with
      | [] => none
      | _ :: rest =>
        if rest.length < MAX_NODES_PER_BUCKET then
          some { nodes := rest ++ [pending], pending_node := none, last_update := b.last_update }
        else
          none
    else
      some b

/-- Nat.checked_sub of the source. -/
def checkedSub (a b : Nat) : Option Nat :=
  if b ≤ a then some (a - b) else none

/-- Constructor KBucketsTable.new: num_bits fresh empty buckets, all
stamped with the construction instant. -/
def KBucketsTable.new (P : PeerIdCap Id) (my_id : Id) (ping_timeout now : Nat) :
    KBucketsTable Id Val :=
  { my_id := my_id
    tables := List.replicate P.num_bits
      { nodes := [], pending_node := none, last_update := now }
    ping_timeout := ping_timeout }

/-- Method KBucketsTable.bucket_num: (num_bits - 1).checked_sub of the
leading zeros of the distance to the local id; none for the local id. -/
def KBucketsTable.bucket_num (t : KBucketsTable Id Val) (P : PeerIdCap Id) (id : Id) :
    Option Nat :=
  checkedSub (P.num_bits - 1) (P.leading_zeros (P.distance_with t.my_id id))

/-- Iterator.position on a list. -/
def position (p : α → Bool) : List α → Option Nat
  | [] => none
  | a :: l => if p a then some 0 else (position p l).map (· + 1)

/-- Vec.remove at an index (callers only pass valid indices). -/
def removeAt (l : List α) (i : Nat) : List α :=
  l.take i ++ l.drop (i + 1)

/-- Vec.insert at an index (callers only pass valid indices). -/
def insertAt (l : List α) (i : Nat) (a : α) : List α :=
  l.take i ++ a :: l.drop i

/-- Bucket-level body of KBucketsTable.update: flush, then the decision
between the Refreshed, Added, NeedPing and Discarded branches. -/
def KBucket.updateBucket [DecidableEq Id] (b : KBucket Id Val) (timeout now : Nat)
    (id : Id) (value : Val) : Option (UpdateOutcome Id Val × KBucket Id Val) :=
  match b.flush timeout now with
  | none => none
  | some bf =>
    match position (fun n => decide (n.id = id)) bf.nodes with
    | some pos =>
      match bf.nodes.get? pos with
      | none => none
      | some existing =>
        let nodes1 := removeAt bf.nodes pos
        let nodes2 := if pos = 0 then nodes1.take (MAX_NODES_PER_BUCKET - 1) else nodes1
        let pending2 := if pos = 0 then none else bf.pending_node
        if nodes2.length < MAX_NODES_PER_BUCKET then
          some (UpdateOutcome.Refreshed existing.value,
            { nodes := nodes2 ++ [{ id := existing.id, value := value }]
              pending_node := pending2
              last_update := now })
        else
          none
    | none =>
      if bf.nodes.length < MAX_NODES_PER_BUCKET then
        some (UpdateOutcome.Added,
          { nodes := bf.nodes ++ [{ id := id, value := value }]
            pending_node := bf.pending_node
            last_update := now })
      else
        match bf.pending_node with
        | some _ => some (UpdateOutcome.Discarded, bf)
        | none =>
          match bf.nodes with
          | [] => none
          | n0 :: _ =>
            some (UpdateOutcome.NeedPing n0.id,
              { nodes := bf.nodes
                pending_node := some ({ id := id, value := value }, now)
                last_update := bf.last_update })

/-- Method KBucketsTable.update. -/
def KBucketsTable.update [DecidableEq Id] (t : KBucketsTable Id Val) (P : PeerIdCap Id)
    (now : Nat) (id : Id) (value : Val) :
    Option (UpdateOutcome Id Val × KBucketsTable Id Val) :=
  match t.bucket_num P id with
  | none => some (UpdateOutcome.FailSelfUpdate, t)
  | some n =>
    match t.tables.get? n with
    | none => none
    | some b =>
      match b.updateBucket t.ping_timeout now id value with
      | none => none
      | some (outcome, b2) => some (outcome, { t with tables := t.tables.set n b2 })

/-- Flush every bucket of the list in order. -/
def flushBuckets (timeout now : Nat) : List (KBucket Id Val) → Option (List (KBucket Id Val))
  | [] => some []
  | b :: bs =>
    match b.flush timeout now, flushBuckets timeout now bs with
    | some b2, some bs2 => some (b2 :: bs2)
    | _, _ => none

/-- Identifier-collecting loop of find_closest: skip a bucket whose
last_update is more than the ping timeout in the past, collect every
node id of the other buckets. -/
def collectFresh (timeout now : Nat) : List (KBucket Id Val) → List Id
  | [] => []
  | b :: bs =>
    (if timeout < now - b.last_update then [] else b.nodes.map Node.id) ++
      collectFresh timeout now bs

/-- Method KBucketsTable.find_closest: flush each bucket, collect the ids
of fresh buckets, and stable-sort with the comparator of the source,
which compares the SECOND element's distance with the first: the result
is ordered by descending distance to the target. -/
def KBucketsTable.find_closest [DecidableEq Id] (t : KBucketsTable Id Val) (P : PeerIdCap Id)
    (now : Nat) (id : Id) : Option (List Id × KBucketsTable Id Val) :=
  match flushBuckets t.ping_timeout now t.tables with
  | none => none
  | some ts =>
    some (List.insertionSort (fun a b => P.distance_with b id ≤ P.distance_with a id)
        (collectFresh t.ping_timeout now ts),
      { t with tables := ts })

/-- Method KBucketsTable.find_closest_with_self: run find_closest, then
insert the local id before the first element at distance at least the
local id's own distance to the target, or append it at the end. -/
def KBucketsTable.find_closest_with_self [DecidableEq Id] (t : KBucketsTable Id Val)
    (P : PeerIdCap Id) (now : Nat) (id : Id) :
    Option (List Id × KBucketsTable Id Val) :=
  match t.find_closest P now id with
  | none => none
  | some (intermediate, t2) =>
    match position (fun e => decide (P.distance_with t.my_id id ≤ P.distance_with e id))
        intermediate with
    | some pos =>
      match intermediate.get? pos with
      | none => none
      | some e =>
        if e ≠ t.my_id then some (insertAt intermediate pos t.my_id, t2)
        else some (intermediate, t2)
    | none => some (intermediate ++ [t.my_id], t2)

/-- Method KBucketsTable.buckets, fully consumed: the iterator walks the
bucket vector from index 0 upward, flushing each bucket on access and
yielding a view of it. -/
def KBucketsTable.buckets (t : KBucketsTable Id Val) (now : Nat) :
    Option (List (KBucket Id Val) × KBucketsTable Id Val) :=
  match flushBuckets t.ping_timeout now t.tables with
  | none => none
  | some ts => some (ts, { t with tables := ts })

/-- Flush of the single bucket at index i, as performed by a partial
consumption of the buckets iterator. -/
def KBucketsTable.flushBucketAt (t : KBucketsTable Id Val) (now i : Nat) :
    Option (KBucketsTable Id Val) :=
  match t.tables.get? i with
  | none => none
  | some b =>
    match b.flush t.ping_timeout now with
    | none => none
    | some b2 => some { t with tables := t.tables.set i b2 }

/-- One observable mutation of a table: an update call, the flush done by
a partially consumed buckets iterator, or the flush of every bucket done
by find_closest, find_closest_with_self and a fully consumed buckets
iterator. -/
inductive Step [DecidableEq Id] (P : PeerIdCap Id) :
    KBucketsTable Id Val → KBucketsTable Id Val → Prop
  | update (t : KBucketsTable Id Val) (now : Nat) (id : Id) (value : Val)
      (outcome : UpdateOutcome Id Val) (t2 : KBucketsTable Id Val) :
      t.update P now id value = some (outcome, t2) → Step P t t2
  | flushAt (t : KBucketsTable Id Val) (now i : Nat) (t2 : KBucketsTable Id Val) :
      t.flushBucketAt now i = some t2 → Step P t t2
  | flushAll (t : KBucketsTable Id Val) (now : Nat) (ts : List (KBucket Id Val)) :
      flushBuckets t.ping_timeout now t.tables = some ts → Step P t { t with tables := ts }

/-- Tables reachable from a freshly constructed table through the public
operations. -/
inductive Reachable [DecidableEq Id] (P : PeerIdCap Id) : KBucketsTable Id Val → Prop
  | init (my_id : Id) (ping_timeout now : Nat) :
      Reachable P (KBucketsTable.new P my_id ping_timeout now)
  | step {t t2 : KBucketsTable Id Val} : Reachable P t → Step P t t2 → Reachable P t2

/-- Per-bucket invariant: the bucket respects the capacity, the pending
slot is occupied only when the bucket is full, and every stored or
pending identifier belongs to this bucket index. -/
def BucketInv (P : PeerIdCap Id) (my : Id) (i : Nat) (b : KBucket Id Val) : Prop :=
  b.nodes.length ≤ MAX_NODES_PER_BUCKET ∧
  (b.pending_node.isSome → b.nodes.length = MAX_NODES_PER_BUCKET) ∧
  (∀ nd ∈ b.nodes,
    checkedSub (P.num_bits - 1) (P.leading_zeros (P.distance_with my nd.id)) = some i) ∧
  (∀ nd instant, b.pending_node = some (nd, instant) →
    checkedSub (P.num_bits - 1) (P.leading_zeros (P.distance_with my nd.id)) = some i)

/-- Table invariant: one bucket per bit, each satisfying its invariant. -/
def TableInv (P : PeerIdCap Id) (t : KBucketsTable Id Val) : Prop :=
  t.tables.length = P.num_bits ∧
  ∀ i b, t.tables.get? i = some b → BucketInv P t.my_id i b

/-- Lawfulness of a distance capability, as the source's U512 instance
provides it: a positive bit width, saturated leading zeros on the zero
self-distance, and fewer than num_bits leading zeros for distinct ids. -/
def LawfulPeerIdCap {Id : Type} (P : PeerIdCap Id) : Prop :=
  0 < P.num_bits ∧
  (∀ a, P.num_bits ≤ P.leading_zeros (P.distance_with a a)) ∧
  (∀ a b, a ≠ b → P.leading_zeros (P.distance_with a b) < P.num_bits)

theorem get?_set_self (l : List α) (i : Nat) (a : α) (h : i < l.length) :
    (l.set i a).get? i = some a := by
  induction l generalizing i with
  | nil => simp at h
  | cons x xs ih =>
    cases i with
    | zero => rfl
    | succ j => exact ih j (Nat.lt_of_succ_lt_succ h)

theorem get?_set_ne (l : List α) (i j : Nat) (a : α) (h : i ≠ j) :
    (l.set i a).get? j = l.get? j := by
  induction l generalizing i j with
  | nil => rfl
  | cons x xs ih =>
    cases i with
    | zero =>
      cases j with
      | zero => exact absurd rfl h
      | succ k => rfl
    | succ i2 =>
      cases j with
      | zero => rfl
      | succ k => exact ih i2 k (fun hc => h (by rw [hc]))

theorem set_get?_eq (l : List α) (i : Nat) (a : α) (h : l.get? i = some a) :
    l.set i a = l := by
  induction l generalizing i with
  | nil => rfl
  | cons x xs ih =>
    cases i with
    | zero => simp only [List.get?] at h; cases h; rfl
    | succ j =>
      simp only [List.get?] at h
      simp [List.set, ih j h]

theorem get?_replicate (a : α) (n i : Nat) :
    (List.replicate n a).get? i = if i < n then some a else none := by
  induction n generalizing i with
  | zero => simp
  | succ m ih =>
    cases i with
    | zero => simp [List.replicate]
    | succ j => simpa [List.replicate, Nat.succ_lt_succ_iff] using ih j

theorem position_eq_none {p : α → Bool} {l : List α} (h : ∀ a ∈ l, p a = false) :
    position p l = none := by
  induction l with
  | nil => rfl
  | cons x xs ih =>
    have hx := h x (List.mem_cons_self x xs)
    have hxs := ih (fun a ha => h a (List.mem_cons_of_mem x ha))
    simp [position, hx, hxs]

theorem position_get? {p : α → Bool} {l : List α} {i : Nat} (h : position p l = some i) :
    ∃ a, l.get? i = some a ∧ p a = true := by
  induction l generalizing i with
  | nil => simp [position] at h
  | cons x xs ih =>
    by_cases hx : p x
    · simp only [position, hx, if_pos] at h
      cases h
      exact ⟨x, rfl, hx⟩
    · simp only [position, hx, if_neg, Bool.false_eq_true, not_false_iff] at h
      cases hpos : position p xs with
      | none => rw [hpos] at h; simp at h
      | some j =>
        rw [hpos] at h
        cases h
        obtain ⟨a, ha, hpa⟩ := ih hpos
        exact ⟨a, ha, hpa⟩

theorem position_lt_length {p : α → Bool} {l : List α} {i : Nat}
    (h : position p l = some i) : i < l.length := by
  obtain ⟨a, ha, _⟩ := position_get? h
  exact List.get?_eq_some.mp ha |>.1

theorem length_removeAt (l : List α) (i : Nat) (h : i < l.length) :
    (removeAt l i).length = l.length - 1 := by
  simp only [removeAt, List.length_append, List.length_take, List.length_drop]
  omega

theorem removeAt_subset (l : List α) (i : Nat) : removeAt l i ⊆ l := by
  intro a ha
  rcases List.mem_append.mp ha with h | h
  · exact List.take_subset i l h
  · exact List.drop_subset (i + 1) l h

theorem flush_pending_none {b : KBucket Id Val} (timeout now : Nat)
    (h : b.pending_node = none) : b.flush timeout now = some b := by
  simp [KBucket.flush, h]

theorem flush_cases {b b2 : KBucket Id Val} {timeout now : Nat}
    (h : b.flush timeout now = some b2) :
    b2 = b ∨
    ∃ pn instant x rest, b.pending_node = some (pn, instant) ∧ timeout ≤ now - instant ∧
      b.nodes = x :: rest ∧ rest.length < MAX_NODES_PER_BUCKET ∧
      b2 = { nodes := rest ++ [pn], pending_node := none, last_update := b.last_update } := by
  unfold KBucket.flush at h
  cases hp : b.pending_node with
  | none =>
    simp only [hp] at h
    cases h
    exact Or.inl rfl
  | some pr =>
    obtain ⟨pn, instant⟩ := pr
    simp only [hp] at h
    by_cases ht : timeout ≤ now - instant
    · simp only [if_pos ht] at h
      cases hn : b.nodes with
      | nil =>
        simp only [hn] at h
        exact Option.noConfusion h
      | cons x rest =>
        simp only [hn] at h
        by_cases hl : rest.length < MAX_NODES_PER_BUCKET
        · simp only [if_pos hl, Option.some_inj] at h
          exact Or.inr ⟨pn, instant, x, rest, rfl, ht, rfl, hl, h.symm⟩
        · simp only [if_neg hl] at h
          exact Option.noConfusion h
    · simp only [if_neg ht] at h
      cases h
      exact Or.inl rfl

theorem flush_length {b b2 : KBucket Id Val} {timeout now : Nat}
    (h : b.flush timeout now = some b2) : b2.nodes.length = b.nodes.length := by
  rcases flush_cases h with h2 | ⟨pn, instant, x, rest, _, _, hn, _, h2⟩
  · rw [h2]
  · subst h2; rw [hn]; simp

theorem flush_last_update {b b2 : KBucket Id Val} {timeout now : Nat}
    (h : b.flush timeout now = some b2) : b2.last_update = b.last_update := by
  rcases flush_cases h with h2 | ⟨pn, instant, x, rest, _, _, hn, _, h2⟩
  · rw [h2]
  · subst h2; rfl

theorem flush_inv {P : PeerIdCap Id} {my : Id} {i : Nat} {b b2 : KBucket Id Val}
    {timeout now : Nat} (hInv : BucketInv P my i b) (h : b.flush timeout now = some b2) :
    BucketInv P my i b2 := by
  obtain ⟨hlen, hpend, hmem, hpmem⟩ := hInv
  rcases flush_cases h with h2 | ⟨pn, instant, x, rest, hp, _, hn, _, h2⟩
  · rw [h2]; exact ⟨hlen, hpend, hmem, hpmem⟩
  · subst h2
    refine ⟨?_, ?_, ?_, ?_⟩
    · simpa using (by rw [hn] at hlen; simpa using hlen)
    · intro hs; simp at hs
    · intro nd hnd
      rcases List.mem_append.mp hnd with hr | hpn
      · exact hmem nd (by rw [hn]; exact List.mem_cons_of_mem x hr)
      · have : nd = pn := by simpa using hpn
        subst this
        exact hpmem nd instant hp
    · intro nd instant2 hc; simp at hc

theorem flush_isSome_of_inv {P : PeerIdCap Id} {my : Id} {i : Nat} {b : KBucket Id Val}
    (hInv : BucketInv P my i b) (timeout now : Nat) : (b.flush timeout now).isSome := by
  obtain ⟨hlen, hpend, _, _⟩ := hInv
  cases hp : b.pending_node with
  | none => simp [KBucket.flush, hp]
  | some pr =>
    obtain ⟨pn, instant⟩ := pr
    have hfull : b.nodes.length = MAX_NODES_PER_BUCKET := hpend (by rw [hp]; rfl)
    cases hn : b.nodes with
    | nil => rw [hn] at hfull; simp [MAX_NODES_PER_BUCKET] at hfull
    | cons x rest =>
      have hr : rest.length < MAX_NODES_PER_BUCKET := by
        rw [hn] at hfull
        simp only [List.length_cons] at hfull
        omega
      by_cases ht : timeout ≤ now - instant
      · simp [KBucket.flush, hp, hn, ht, hr]
      · simp [KBucket.flush, hp, ht]

theorem updateBucket_added [DecidableEq Id] {b bf : KBucket Id Val} {timeout now : Nat}
    {id : Id} (value : Val) (hf : b.flush timeout now = some bf)
    (hfresh : ∀ nd ∈ bf.nodes, nd.id ≠ id) (hlen : bf.nodes.length < MAX_NODES_PER_BUCKET) :
    b.updateBucket timeout now id value =
      some (UpdateOutcome.Added,
        { nodes := bf.nodes ++ [{ id := id, value := value }]
          pending_node := bf.pending_node
          last_update := now }) := by
  have hpos : position (fun n => decide (n.id = id)) bf.nodes = none :=
    position_eq_none (fun a ha => by simpa using hfresh a ha)
  simp [KBucket.updateBucket, hf, hpos, hlen]

theorem updateBucket_needping [DecidableEq Id] {b bf : KBucket Id Val} {timeout now : Nat}
    {id : Id} {n0 : Node Id Val} {tl : List (Node Id Val)} (value : Val)
    (hf : b.flush timeout now = some bf)
    (hfresh : ∀ nd ∈ bf.nodes, nd.id ≠ id) (hlen : ¬ bf.nodes.length < MAX_NODES_PER_BUCKET)
    (hpend : bf.pending_node = none) (hn : bf.nodes = n0 :: tl) :
    b.updateBucket timeout now id value =
      some (UpdateOutcome.NeedPing n0.id,
        { nodes := bf.nodes
          pending_node := some ({ id := id, value := value }, now)
          last_update := bf.last_update }) := by
  have hpos : position (fun n => decide (n.id = id)) bf.nodes = none :=
    position_eq_none (fun a ha => by simpa using hfresh a ha)
  rw [hn] at hpos hlen
  simp [KBucket.updateBucket, hf, hn, hpos, hlen, hpend]
  simp only [List.length_cons] at hlen
  omega

theorem updateBucket_discarded [DecidableEq Id] {b bf : KBucket Id Val} {timeout now : Nat}
    {id : Id} {pr : Node Id Val × Nat} (value : Val)
    (hf : b.flush timeout now = some bf)
    (hfresh : ∀ nd ∈ bf.nodes, nd.id ≠ id) (hlen : ¬ bf.nodes.length < MAX_NODES_PER_BUCKET)
    (hpend : bf.pending_node = some pr) :
    b.updateBucket timeout now id value = some (UpdateOutcome.Discarded, bf) := by
  have hpos : position (fun n => decide (n.id = id)) bf.nodes = none :=
    position_eq_none (fun a ha => by simpa using hfresh a ha)
  simp [KBucket.updateBucket, hf, hpos, hlen, hpend]

theorem updateBucket_refreshed [DecidableEq Id] {b bf : KBucket Id Val} {timeout now : Nat}
    {id : Id} {pos : Nat} {nd : Node Id Val} (value : Val)
    (hf : b.flush timeout now = some bf)
    (hpos : position (fun n => decide (n.id = id)) bf.nodes = some pos)
    (hget : bf.nodes.get? pos = some nd) (hlen : bf.nodes.length ≤ MAX_NODES_PER_BUCKET) :
    b.updateBucket timeout now id value =
      some (UpdateOutcome.Refreshed nd.value,
        { nodes := removeAt bf.nodes pos ++ [{ id := nd.id, value := value }]
          pending_node := if pos = 0 then none else bf.pending_node
          last_update := now }) := by
  have hlt : pos < bf.nodes.length := position_lt_length hpos
  have hget2 : bf.nodes[pos]? = some nd := by
    rw [← List.get?_eq_getElem?]; exact hget
  have hrem : (removeAt bf.nodes pos).length = bf.nodes.length - 1 :=
    length_removeAt _ _ hlt
  have hremlt : (removeAt bf.nodes pos).length < MAX_NODES_PER_BUCKET := by
    rw [hrem]; simp only [MAX_NODES_PER_BUCKET] at hlen ⊢; omega
  by_cases h0 : pos = 0
  · subst h0
    have htake : (removeAt bf.nodes 0).take (MAX_NODES_PER_BUCKET - 1) =
        removeAt bf.nodes 0 := by
      apply List.take_of_length_le
      rw [hrem]; simp only [MAX_NODES_PER_BUCKET] at hlen ⊢; omega
    simp [KBucket.updateBucket, hf, hpos, hget2, htake, hremlt]
  · simp [KBucket.updateBucket, hf, hpos, hget2, h0, hremlt]

theorem updateBucket_cases [DecidableEq Id] {b : KBucket Id Val} {timeout now : Nat}
    {id : Id} {value : Val} {o : UpdateOutcome Id Val} {b2 : KBucket Id Val}
    (h : b.updateBucket timeout now id value = some (o, b2)) :
    ∃ bf, b.flush timeout now = some bf ∧
      ((∃ pos nd, position (fun n => decide (n.id = id)) bf.nodes = some pos ∧
          bf.nodes.get? pos = some nd ∧ o = UpdateOutcome.Refreshed nd.value ∧
          b2 = { nodes :=
                   (if pos = 0 then (removeAt bf.nodes pos).take (MAX_NODES_PER_BUCKET - 1)
                    else removeAt bf.nodes pos) ++ [{ id := nd.id, value := value }]
                 pending_node := if pos = 0 then none else bf.pending_node
                 last_update := now }) ∨
        (position (fun n => decide (n.id = id)) bf.nodes = none ∧
          bf.nodes.length < MAX_NODES_PER_BUCKET ∧ o = UpdateOutcome.Added ∧
          b2 = { nodes := bf.nodes ++ [{ id := id, value := value }]
                 pending_node := bf.pending_node
                 last_update := now }) ∨
        (position (fun n => decide (n.id = id)) bf.nodes = none ∧
          ¬ bf.nodes.length < MAX_NODES_PER_BUCKET ∧ bf.pending_node = none ∧
          (∃ n0 tl, bf.nodes = n0 :: tl ∧ o = UpdateOutcome.NeedPing n0.id) ∧
          b2 = { nodes := bf.nodes
                 pending_node := some ({ id := id, value := value }, now)
                 last_update := bf.last_update }) ∨
        (position (fun n => decide (n.id = id)) bf.nodes = none ∧
          ¬ bf.nodes.length < MAX_NODES_PER_BUCKET ∧ bf.pending_node.isSome ∧
          o = UpdateOutcome.Discarded ∧ b2 = bf)) := by
  unfold KBucket.updateBucket at h
  cases hf : b.flush timeout now with
  | none =>
    simp only [hf] at h
    exact Option.noConfusion h
  | some bf =>
    simp only [hf] at h
    refine ⟨bf, rfl, ?_⟩
    cases hp : position (fun n => decide (n.id = id)) bf.nodes with
    | some pos =>
      simp only [hp] at h
      cases hget : bf.nodes.get? pos with
      | none =>
        simp only [hget] at h
        exact Option.noConfusion h
      | some nd =>
        simp only [hget] at h
        by_cases hguard :
            (if pos = 0 then (removeAt bf.nodes pos).take (MAX_NODES_PER_BUCKET - 1)
             else removeAt bf.nodes pos).length < MAX_NODES_PER_BUCKET
        · simp only [if_pos hguard, Option.some_inj] at h
          injection h with h1 h2
          exact Or.inl ⟨pos, nd, rfl, hget, h1.symm, h2.symm⟩
        · simp only [if_neg hguard] at h
          exact Option.noConfusion h
    | none =>
      simp only [hp] at h
      by_cases hlen : bf.nodes.length < MAX_NODES_PER_BUCKET
      · simp only [if_pos hlen, Option.some_inj] at h
        injection h with h1 h2
        exact Or.inr (Or.inl ⟨rfl, hlen, h1.symm, h2.symm⟩)
      · simp only [if_neg hlen] at h
        cases hpend : bf.pending_node with
        | some pr =>
          simp only [hpend, Option.some_inj] at h
          injection h with h1 h2
          exact Or.inr (Or.inr (Or.inr ⟨rfl, hlen, rfl, h1.symm, h2.symm⟩))
        | none =>
          simp only [hpend] at h
          cases hn : bf.nodes with
          | nil =>
            simp only [hn] at h
            exact Option.noConfusion h
          | cons n0 tl =>
            rw [hn] at hlen
            simp only [hn, Option.some_inj] at h
            injection h with h1 h2
            exact Or.inr (Or.inr (Or.inl ⟨rfl, hlen, rfl, ⟨n0, tl, rfl, h1.symm⟩, h2.symm⟩))

theorem get?_some_lt {l : List α} {n : Nat} {a : α} (h : l.get? n = some a) :
    n < l.length := by
  induction l generalizing n with
  | nil => simp at h
  | cons x xs ih =>
    cases n with
    | zero => simp
    | succ m =>
      simp only [List.get?] at h
      exact Nat.succ_lt_succ (ih h)

theorem get?_some_mem {l : List α} {n : Nat} {a : α} (h : l.get? n = some a) :
    a ∈ l := List.mem_iff_get?.mpr ⟨n, h⟩

theorem updateBucket_inv [DecidableEq Id] {P : PeerIdCap Id} {my : Id} {i : Nat}
    {b : KBucket Id Val} {timeout now : Nat} {id : Id} {value : Val}
    {o : UpdateOutcome Id Val} {b2 : KBucket Id Val}
    (hInv : BucketInv P my i b)
    (hid : checkedSub (P.num_bits - 1) (P.leading_zeros (P.distance_with my id)) = some i)
    (h : b.updateBucket timeout now id value = some (o, b2)) :
    BucketInv P my i b2 := by
  obtain ⟨bf, hf, hcase⟩ := updateBucket_cases h
  obtain ⟨hlenf, hpendf, hmemf, hpmemf⟩ := flush_inv hInv hf
  rcases hcase with ⟨pos, nd, hp, hget, ho, hb2⟩ | ⟨hp, hlen, ho, hb2⟩ |
    ⟨hp, hlen, hpend, ⟨n0, tl, hn, ho⟩, hb2⟩ | ⟨hp, hlen, hpend, ho, hb2⟩
  · subst hb2
    have hposlt : pos < bf.nodes.length := get?_some_lt hget
    have hrem : (removeAt bf.nodes pos).length = bf.nodes.length - 1 :=
      length_removeAt _ _ hposlt
    have hndmem : nd ∈ bf.nodes := get?_some_mem hget
    have hsub : (if pos = 0 then (removeAt bf.nodes pos).take (MAX_NODES_PER_BUCKET - 1)
        else removeAt bf.nodes pos) ⊆ bf.nodes := by
      by_cases h0 : pos = 0
      · rw [if_pos h0]
        exact fun a ha => removeAt_subset _ _ (List.take_subset _ _ ha)
      · rw [if_neg h0]
        exact removeAt_subset _ _
    have htk : ((removeAt bf.nodes pos).take (MAX_NODES_PER_BUCKET - 1)).length ≤
        (removeAt bf.nodes pos).length := by
      rw [List.length_take]
      omega
    have hlen2 : (if pos = 0 then (removeAt bf.nodes pos).take (MAX_NODES_PER_BUCKET - 1)
        else removeAt bf.nodes pos).length ≤ bf.nodes.length - 1 := by
      by_cases h0 : pos = 0
      · rw [if_pos h0]
        exact le_trans htk (le_of_eq hrem)
      · rw [if_neg h0]
        exact le_of_eq hrem
    refine ⟨?_, ?_, ?_, ?_⟩
    · simp only [List.length_append, List.length_cons, List.length_nil]
      omega
    · intro hs
      have hs2 : (if pos = 0 then none else bf.pending_node).isSome = true := hs
      show ((if pos = 0 then (removeAt bf.nodes pos).take (MAX_NODES_PER_BUCKET - 1)
        else removeAt bf.nodes pos) ++ [({ id := nd.id, value := value } : Node Id Val)]).length =
        MAX_NODES_PER_BUCKET
      by_cases h0 : pos = 0
      · rw [if_pos h0] at hs2
        exact absurd hs2 (by simp)
      · rw [if_neg h0] at hs2
        have hfull := hpendf hs2
        rw [if_neg h0]
        simp only [List.length_append, List.length_cons, List.length_nil]
        omega
    · intro nd2 hnd2
      rcases List.mem_append.mp hnd2 with hin | hone
      · exact hmemf nd2 (hsub hin)
      · have he : nd2 = { id := nd.id, value := value } := by simpa using hone
        subst he
        exact hmemf nd hndmem
    · intro nd2 instant2 hpe
      have hpe2 : (if pos = 0 then none else bf.pending_node) = some (nd2, instant2) := hpe
      by_cases h0 : pos = 0
      · rw [if_pos h0] at hpe2
        exact absurd hpe2 (by simp)
      · rw [if_neg h0] at hpe2
        exact hpmemf nd2 instant2 hpe2
  · subst hb2
    refine ⟨?_, ?_, ?_, ?_⟩
    · simp only [List.length_append, List.length_cons, List.length_nil]
      omega
    · intro hs
      exact absurd (hpendf hs) (Nat.ne_of_lt hlen)
    · intro nd2 hnd2
      rcases List.mem_append.mp hnd2 with hin | hone
      · exact hmemf nd2 hin
      · have he : nd2 = { id := id, value := value } := by simpa using hone
        subst he
        exact hid
    · intro nd2 instant2 hpe
      exact hpmemf nd2 instant2 hpe
  · subst hb2
    refine ⟨hlenf, ?_, hmemf, ?_⟩
    · intro _
      show bf.nodes.length = MAX_NODES_PER_BUCKET
      omega
    · intro nd2 instant2 hpe
      simp only [Option.some_inj, Prod.mk.injEq] at hpe
      obtain ⟨h1, h2⟩ := hpe
      subst h1
      exact hid
  · subst hb2
    exact ⟨hlenf, hpendf, hmemf, hpmemf⟩

theorem update_failself [DecidableEq Id] {t : KBucketsTable Id Val} {P : PeerIdCap Id}
    {now : Nat} {id : Id} {value : Val} (hb : t.bucket_num P id = none) :
    t.update P now id value = some (UpdateOutcome.FailSelfUpdate, t) := by
  simp [KBucketsTable.update, hb]

theorem update_eq_of_bucket [DecidableEq Id] {t : KBucketsTable Id Val} {P : PeerIdCap Id}
    {now : Nat} {id : Id} {value : Val} {n : Nat} {b : KBucket Id Val}
    {o : UpdateOutcome Id Val} {b2 : KBucket Id Val}
    (hb : t.bucket_num P id = some n) (hg : t.tables.get? n = some b)
    (hub : b.updateBucket t.ping_timeout now id value = some (o, b2)) :
    t.update P now id value = some (o, { t with tables := t.tables.set n b2 }) := by
  have hg2 : t.tables[n]? = some b := by
    rw [← List.get?_eq_getElem?]; exact hg
  simp [KBucketsTable.update, hb, hg2, hub]

theorem update_cases [DecidableEq Id] {t t2 : KBucketsTable Id Val} {P : PeerIdCap Id}
    {now : Nat} {id : Id} {value : Val} {o : UpdateOutcome Id Val}
    (h : t.update P now id value = some (o, t2)) :
    (t.bucket_num P id = none ∧ o = UpdateOutcome.FailSelfUpdate ∧ t2 = t) ∨
    (∃ n b b2, t.bucket_num P id = some n ∧ t.tables.get? n = some b ∧
      b.updateBucket t.ping_timeout now id value = some (o, b2) ∧
      t2 = { t with tables := t.tables.set n b2 }) := by
  unfold KBucketsTable.update at h
  cases hb : t.bucket_num P id with
  | none =>
    simp only [hb, Option.some_inj] at h
    injection h with h1 h2
    exact Or.inl ⟨rfl, h1.symm, h2.symm⟩
  | some n =>
    simp only [hb] at h
    cases hg : t.tables.get? n with
    | none =>
      simp only [hg] at h
      exact Option.noConfusion h
    | some b =>
      simp only [hg] at h
      cases hub : b.updateBucket t.ping_timeout now id value with
      | none =>
        simp only [hub] at h
        exact Option.noConfusion h
      | some pr =>
        obtain ⟨o2, b2⟩ := pr
        simp only [hub, Option.some_inj] at h
        injection h with h1 h2
        subst h1
        exact Or.inr ⟨n, b, b2, rfl, hg, hub, h2.symm⟩

theorem update_fields [DecidableEq Id] {t t2 : KBucketsTable Id Val} {P : PeerIdCap Id}
    {now : Nat} {id : Id} {value : Val} {o : UpdateOutcome Id Val}
    (h : t.update P now id value = some (o, t2)) :
    t2.my_id = t.my_id ∧ t2.ping_timeout = t.ping_timeout ∧
      t2.tables.length = t.tables.length := by
  rcases update_cases h with ⟨_, _, ht⟩ | ⟨n, b, b2, _, _, _, ht⟩
  · subst ht; exact ⟨rfl, rfl, rfl⟩
  · subst ht; exact ⟨rfl, rfl, List.length_set t.tables n b2⟩

theorem update_TableInv [DecidableEq Id] {t t2 : KBucketsTable Id Val} {P : PeerIdCap Id}
    {now : Nat} {id : Id} {value : Val} {o : UpdateOutcome Id Val}
    (hT : TableInv P t) (h : t.update P now id value = some (o, t2)) :
    TableInv P t2 := by
  obtain ⟨hTlen, hTb⟩ := hT
  rcases update_cases h with ⟨_, _, ht⟩ | ⟨n, b, b2, hb, hg, hub, ht⟩
  · subst ht; exact ⟨hTlen, hTb⟩
  · subst ht
    refine ⟨by simpa using hTlen, ?_⟩
    intro j bj hj
    by_cases hjn : j = n
    · subst hjn
      rw [get?_set_self _ _ _ (get?_some_lt hg)] at hj
      cases hj
      exact updateBucket_inv (hTb j b hg) hb hub
    · rw [get?_set_ne _ _ _ _ (fun hc => hjn hc.symm)] at hj
      exact hTb j bj hj

theorem flushBuckets_get? {timeout now : Nat} :
    ∀ {ts ts2 : List (KBucket Id Val)}, flushBuckets timeout now ts = some ts2 →
      ts2.length = ts.length ∧
      ∀ i, ts2.get? i = (ts.get? i).bind (fun b => b.flush timeout now) := by
  intro ts
  induction ts with
  | nil =>
    intro ts2 h
    cases h
    exact ⟨rfl, fun i => by cases i <;> rfl⟩
  | cons b bs ih =>
    intro ts2 h
    unfold flushBuckets at h
    cases hfb : b.flush timeout now with
    | none =>
      simp only [hfb] at h
      exact Option.noConfusion h
    | some b2 =>
      simp only [hfb] at h
      cases hrec : flushBuckets timeout now bs with
      | none =>
        simp only [hrec] at h
        exact Option.noConfusion h
      | some bs2 =>
        simp only [hrec, Option.some_inj] at h
        subst h
        obtain ⟨hlen, hget⟩ := ih hrec
        refine ⟨by simpa using hlen, ?_⟩
        intro i
        cases i with
        | zero => simpa using hfb.symm
        | succ j => simpa using hget j

theorem flushBuckets_TableInv {P : PeerIdCap Id} {t : KBucketsTable Id Val}
    {now : Nat} {ts : List (KBucket Id Val)} (hT : TableInv P t)
    (h : flushBuckets t.ping_timeout now t.tables = some ts) :
    TableInv P { t with tables := ts } := by
  obtain ⟨hTlen, hTb⟩ := hT
  obtain ⟨hlen, hget⟩ := flushBuckets_get? h
  refine ⟨by simpa using hlen.trans hTlen, ?_⟩
  intro i b2 hb2
  rw [hget i] at hb2
  cases hg : t.tables.get? i with
  | none => rw [hg] at hb2; exact Option.noConfusion hb2
  | some b =>
    rw [hg] at hb2
    have hb22 : b.flush t.ping_timeout now = some b2 := hb2
    exact flush_inv (hTb i b hg) hb22

theorem flushBucketAt_TableInv {P : PeerIdCap Id} {t t2 : KBucketsTable Id Val}
    {now i : Nat} (hT : TableInv P t) (h : t.flushBucketAt now i = some t2) :
    TableInv P t2 := by
  obtain ⟨hTlen, hTb⟩ := hT
  unfold KBucketsTable.flushBucketAt at h
  cases hg : t.tables.get? i with
  | none =>
    simp only [hg] at h
    exact Option.noConfusion h
  | some b =>
    simp only [hg] at h
    cases hfb : b.flush t.ping_timeout now with
    | none =>
      simp only [hfb] at h
      exact Option.noConfusion h
    | some b2 =>
      simp only [hfb, Option.some_inj] at h
      subst h
      refine ⟨by simpa using hTlen, ?_⟩
      intro j bj hj
      by_cases hji : j = i
      · subst hji
        rw [get?_set_self _ _ _ (get?_some_lt hg)] at hj
        cases hj
        exact flush_inv (hTb j b hg) hfb
      · rw [get?_set_ne _ _ _ _ (fun hc => hji hc.symm)] at hj
        exact hTb j bj hj

theorem new_TableInv (P : PeerIdCap Id) (my : Id) (timeout now : Nat) :
    TableInv P (KBucketsTable.new P my timeout now : KBucketsTable Id Val) := by
  refine ⟨by simp [KBucketsTable.new], ?_⟩
  intro i b hb
  simp only [KBucketsTable.new, get?_replicate] at hb
  by_cases hi : i < P.num_bits
  · rw [if_pos hi] at hb
    cases hb
    refine ⟨by simp [MAX_NODES_PER_BUCKET], by simp, by simp, by simp⟩
  · rw [if_neg hi] at hb
    exact Option.noConfusion hb

theorem reachable_TableInv [DecidableEq Id] {P : PeerIdCap Id} {t : KBucketsTable Id Val}
    (h : Reachable P t) : TableInv P t := by
  induction h with
  | init my timeout now => exact new_TableInv P my timeout now
  | step hr hs ih =>
    cases hs with
    | update _ _ _ _ _ hu => exact update_TableInv ih hu
    | flushAt _ _ _ hfa => exact flushBucketAt_TableInv ih hfa
    | flushAll _ _ hfa => exact flushBuckets_TableInv ih hfa

theorem mem_collectFresh {timeout now : Nat} {x : Id} :
    ∀ {bs : List (KBucket Id Val)}, x ∈ collectFresh timeout now bs →
      ∃ b, b ∈ bs ∧ ∃ nd, nd ∈ b.nodes ∧ nd.id = x := by
  intro bs
  induction bs with
  | nil =>
    intro h
    simp [collectFresh] at h
  | cons b bs ih =>
    intro h
    unfold collectFresh at h
    rcases List.mem_append.mp h with h1 | h2
    · by_cases hc : timeout < now - b.last_update
      · rw [if_pos hc] at h1
        simp at h1
      · rw [if_neg hc] at h1
        obtain ⟨nd, hnd, hid⟩ := List.mem_map.mp h1
        exact ⟨b, List.mem_cons_self b bs, nd, hnd, hid⟩
    · obtain ⟨b2, hb2, hrest⟩ := ih h2
      exact ⟨b2, List.mem_cons_of_mem b hb2, hrest⟩

/-- C4: on a bucket within capacity, flush promotes a pending contact
that has waited at least the timeout by dropping the front node and
appending the pending one at the back with the slot cleared and the size
unchanged; it leaves the bucket unchanged while the pending contact is
younger than the timeout; and it is a no-op without a pending contact. -/
theorem c4_flush_spec (b : KBucket Id Val) (timeout now : Nat) :
    (∀ pn instant, b.pending_node = some (pn, instant) → timeout ≤ now - instant →
      b.nodes ≠ [] → b.nodes.length ≤ MAX_NODES_PER_BUCKET →
      b.flush timeout now =
        some { nodes := b.nodes.tail ++ [pn], pending_node := none,
               last_update := b.last_update } ∧
      (b.nodes.tail ++ [pn]).length = b.nodes.length) ∧
    (∀ pn instant, b.pending_node = some (pn, instant) → now - instant < timeout →
      b.flush timeout now = some b) ∧
    (b.pending_node = none → b.flush timeout now = some b) := by
  refine ⟨?_, ?_, ?_⟩
  · intro pn instant hp ht hne hlen
    cases hn : b.nodes with
    | nil => exact absurd hn hne
    | cons x rest =>
      have hr : rest.length < MAX_NODES_PER_BUCKET := by
        rw [hn] at hlen
        simp only [List.length_cons] at hlen
        omega
      constructor
      · simp [KBucket.flush, hp, ht, hn, hr]
      · simp
  · intro pn instant hp ht
    have hno : ¬ timeout ≤ now - instant := by omega
    simp [KBucket.flush, hp, hno]
  · intro hp
    exact flush_pending_none timeout now hp

/-- C6: an update naming the local identifier is rejected with outcome
FailSelfUpdate and returns the table unchanged, every bucket included.
The two hypotheses are the properties of distance and leading_zeros the
source's U512 instance provides: positive width and saturated leading
zeros on the zero self-distance. -/
theorem c6_self_update_rejected [DecidableEq Id] (P : PeerIdCap Id)
    (t : KBucketsTable Id Val) (now : Nat) (v : Val)
    (hbits : 0 < P.num_bits)
    (hself : P.num_bits ≤ P.leading_zeros (P.distance_with t.my_id t.my_id)) :
    t.update P now t.my_id v = some (UpdateOutcome.FailSelfUpdate, t) := by
  apply update_failself
  have hno : ¬ P.leading_zeros (P.distance_with t.my_id t.my_id) ≤ P.num_bits - 1 := by
    omega
  simp [KBucketsTable.bucket_num, checkedSub, hno]

/-- C2 (amended): a full consumption of the buckets iterator yields one
flushed view per bucket in increasing index order: the view at position
i is the flush of the bucket at index i, so index 0 comes first and
index num_bits - 1 comes last.  Under the indexing of bucket_num, index
0 is the closest bucket. -/
theorem c2_buckets_iteration_order (t : KBucketsTable Id Val) (now : Nat)
    (views : List (KBucket Id Val)) (t2 : KBucketsTable Id Val)
    (h : t.buckets now = some (views, t2)) :
    views.length = t.tables.length ∧
    (∀ i, views.get? i = (t.tables.get? i).bind (fun b => b.flush t.ping_timeout now)) ∧
    t2 = { t with tables := views } := by
  unfold KBucketsTable.buckets at h
  cases hfb : flushBuckets t.ping_timeout now t.tables with
  | none =>
    simp only [hfb] at h
    exact Option.noConfusion h
  | some ts =>
    simp only [hfb, Option.some_inj] at h
    injection h with h1 h2
    subst h1
    obtain ⟨hl, hg⟩ := flushBuckets_get? hfb
    exact ⟨hl, hg, h2.symm⟩

/-- C8: a contact with a non-local identifier is routed to the bucket of
index (num_bits - 1) - leading_zeros(distance to the local id); an Added
outcome grows exactly that bucket by one entry; and in every reachable
table each identifier stored in bucket i has exactly num_bits - 1 - i
leading zeros of distance to the local id. -/
theorem c8_bucket_placement [DecidableEq Id] (P : PeerIdCap Id)
    (t : KBucketsTable Id Val) (hlaw : LawfulPeerIdCap P) :
    (∀ x, x ≠ t.my_id →
      t.bucket_num P x =
        some (P.num_bits - 1 - P.leading_zeros (P.distance_with t.my_id x))) ∧
    (∀ now x v t2, t.update P now x v = some (UpdateOutcome.Added, t2) →
      ∃ n b b2, t.bucket_num P x = some n ∧ t.tables.get? n = some b ∧
        t2.tables.get? n = some b2 ∧ b2.nodes.length = b.nodes.length + 1) ∧
    (Reachable P t → ∀ i b nd, t.tables.get? i = some b → nd ∈ b.nodes →
      P.leading_zeros (P.distance_with t.my_id nd.id) = P.num_bits - 1 - i) := by
  obtain ⟨hbits, hlzself, hlzne⟩ := hlaw
  refine ⟨?_, ?_, ?_⟩
  · intro x hx
    have hlt : P.leading_zeros (P.distance_with t.my_id x) < P.num_bits :=
      hlzne t.my_id x (fun hc => hx hc.symm)
    have hle : P.leading_zeros (P.distance_with t.my_id x) ≤ P.num_bits - 1 := by omega
    simp [KBucketsTable.bucket_num, checkedSub, hle]
  · intro now x v t2 h
    rcases update_cases h with ⟨_, ho, _⟩ | ⟨n, b, b2, hb, hg, hub, ht2⟩
    · exact absurd ho (by simp)
    · obtain ⟨bf, hf, hcase⟩ := updateBucket_cases hub
      have hflen : bf.nodes.length = b.nodes.length := flush_length hf
      rcases hcase with ⟨pos, nd, _, _, ho, _⟩ | ⟨_, hlen, _, hb2⟩ |
        ⟨_, _, _, ⟨n0, tl, _, ho⟩, _⟩ | ⟨_, _, _, ho, _⟩
      · exact absurd ho (by simp)
      · subst hb2
        subst ht2
        refine ⟨n, b, _, hb, hg, get?_set_self _ _ _ (get?_some_lt hg), ?_⟩
        simp [hflen]
      · exact absurd ho (by simp)
      · exact absurd ho (by simp)
  · intro hr i b nd hg hnd
    obtain ⟨_, hTb⟩ := reachable_TableInv hr
    obtain ⟨_, _, hmem, _⟩ := hTb i b hg
    have := hmem nd hnd
    unfold checkedSub at this
    by_cases hc : P.leading_zeros (P.distance_with t.my_id nd.id) ≤ P.num_bits - 1
    · rw [if_pos hc] at this
      simp only [Option.some_inj] at this
      omega
    · rw [if_neg hc] at this
      exact Option.noConfusion this

/-- C10: in every reachable table the pending slot of a bucket is
occupied only when the bucket holds exactly MAX_NODES_PER_BUCKET
contacts, and under that invariant flush always succeeds: the front
remove never sees an empty vector and the push never sees a full one. -/
theorem c10_pending_only_when_full [DecidableEq Id] {P : PeerIdCap Id}
    {t : KBucketsTable Id Val} (h : Reachable P t) :
    ∀ i b, t.tables.get? i = some b →
      (b.pending_node.isSome → b.nodes.length = MAX_NODES_PER_BUCKET) ∧
      (∀ now, (b.flush t.ping_timeout now).isSome) := by
  obtain ⟨_, hTb⟩ := reachable_TableInv h
  intro i b hg
  have hInv := hTb i b hg
  exact ⟨hInv.2.1, fun now => flush_isSome_of_inv hInv _ _⟩

/-- C9: find_closest flushes every bucket, its output is a permutation of
the identifiers collected from the buckets whose last update is at most
the ping timeout in the past (buckets strictly older contribute
nothing), and the local identifier never appears in the output. -/
theorem c9_find_closest_fresh_ids [DecidableEq Id] {P : PeerIdCap Id}
    {t t2 : KBucketsTable Id Val} {now : Nat} {target : Id} {out : List Id}
    (hr : Reachable P t) (hlaw : LawfulPeerIdCap P)
    (h : t.find_closest P now target = some (out, t2)) :
    flushBuckets t.ping_timeout now t.tables = some t2.tables ∧
    out.Perm (collectFresh t.ping_timeout now t2.tables) ∧
    t.my_id ∉ out := by
  obtain ⟨hbits, hlzself, hlzne⟩ := hlaw
  unfold KBucketsTable.find_closest at h
  cases hfb : flushBuckets t.ping_timeout now t.tables with
  | none =>
    simp only [hfb] at h
    exact Option.noConfusion h
  | some ts =>
    simp only [hfb, Option.some_inj] at h
    injection h with h1 h2
    have hts : t2.tables = ts := by rw [← h2]
    subst h1
    refine ⟨by rw [hts], ?_, ?_⟩
    · rw [hts]
      exact List.perm_insertionSort _ _
    · intro hmem
      rw [List.mem_insertionSort] at hmem
      obtain ⟨b, hb, nd, hnd, hid⟩ := mem_collectFresh hmem
      obtain ⟨i, hgi⟩ := List.mem_iff_get?.mp hb
      have hT2 : TableInv P { t with tables := ts } :=
        flushBuckets_TableInv (reachable_TableInv hr) hfb
      obtain ⟨_, hTb⟩ := hT2
      obtain ⟨_, _, hmemb, _⟩ := hTb i b hgi
      have hcs := hmemb nd hnd
      rw [hid] at hcs
      unfold checkedSub at hcs
      by_cases hc : P.leading_zeros (P.distance_with t.my_id t.my_id) ≤ P.num_bits - 1
      · have := hlzself t.my_id
        omega
      · rw [if_neg hc] at hcs
        exact Option.noConfusion hcs

/-- C5: when the identifier x is present in its (flushed) bucket at
position pos, update returns Refreshed carrying the stored value,
removes x from its slot, re-inserts x at the back with the new value,
stamps the bucket with now, clears the pending slot exactly when x was
at the front, and leaves every other contact untouched. -/
theorem c5_refresh_spec [DecidableEq Id] {P : PeerIdCap Id} {t : KBucketsTable Id Val}
    {now : Nat} {x : Id} {v2 : Val} {n pos : Nat} {b bf : KBucket Id Val}
    (hb : t.bucket_num P x = some n) (hg : t.tables.get? n = some b)
    (hf : b.flush t.ping_timeout now = some bf)
    (hlen : bf.nodes.length ≤ MAX_NODES_PER_BUCKET)
    (hpos : position (fun nd => decide (nd.id = x)) bf.nodes = some pos) :
    ∃ nd, bf.nodes.get? pos = some nd ∧ nd.id = x ∧
      t.update P now x v2 =
        some (UpdateOutcome.Refreshed nd.value,
          { t with tables := (t.tables.set n
            { nodes := removeAt bf.nodes pos ++ [{ id := x, value := v2 }]
              pending_node := if pos = 0 then none else bf.pending_node
              last_update := now }) }) := by
  obtain ⟨nd, hget, hpnd⟩ := position_get? hpos
  have hndid : nd.id = x := by simpa using hpnd
  refine ⟨nd, hget, hndid, ?_⟩
  have hub := updateBucket_refreshed v2 hf hpos hget hlen
  rw [hndid] at hub
  exact update_eq_of_bucket hb hg hub

/-- Iterated updates, one (instant, identifier, value) triple per call. -/
def updateMany [DecidableEq Id] (P : PeerIdCap Id) (t : KBucketsTable Id Val) :
    List (Nat × Id × Val) → Option (List (UpdateOutcome Id Val) × KBucketsTable Id Val)
  | [] => some ([], t)
  | (now, id, v) :: rest =>
    match t.update P now id v with
    | none => none
    | some (o, t2) =>
      match updateMany P t2 rest with
      | none => none
      | some (os, t3) => some (o :: os, t3)

theorem update_added_step [DecidableEq Id] {P : PeerIdCap Id} {t : KBucketsTable Id Val}
    {x : Id} {n : Nat} {b : KBucket Id Val} (now : Nat) (v : Val)
    (hb : t.bucket_num P x = some n) (hg : t.tables.get? n = some b)
    (hpend : b.pending_node = none) (hlen : b.nodes.length < MAX_NODES_PER_BUCKET)
    (hfresh : ∀ nd ∈ b.nodes, nd.id ≠ x) :
    t.update P now x v = some (UpdateOutcome.Added,
      { t with tables := (t.tables.set n
        { nodes := b.nodes ++ [{ id := x, value := v }]
          pending_node := none
          last_update := now }) }) := by
  have hf : b.flush t.ping_timeout now = some b := flush_pending_none _ _ hpend
  have hub := updateBucket_added v hf hfresh hlen
  rw [hpend] at hub
  exact update_eq_of_bucket hb hg hub

theorem update_needping_step [DecidableEq Id] {P : PeerIdCap Id} {t : KBucketsTable Id Val}
    {x : Id} {n : Nat} {b : KBucket Id Val}
    {n0 : Node Id Val} {tl : List (Node Id Val)} (now : Nat) (v : Val)
    (hb : t.bucket_num P x = some n) (hg : t.tables.get? n = some b)
    (hpend : b.pending_node = none) (hn : b.nodes = n0 :: tl)
    (hlen : ¬ b.nodes.length < MAX_NODES_PER_BUCKET)
    (hfresh : ∀ nd ∈ b.nodes, nd.id ≠ x) :
    t.update P now x v = some (UpdateOutcome.NeedPing n0.id,
      { t with tables := (t.tables.set n
        { nodes := b.nodes
          pending_node := some ({ id := x, value := v }, now)
          last_update := b.last_update }) }) := by
  have hf : b.flush t.ping_timeout now = some b := flush_pending_none _ _ hpend
  have hub := updateBucket_needping v hf hfresh hlen hpend hn
  exact update_eq_of_bucket hb hg hub

theorem update_discarded_step [DecidableEq Id] {P : PeerIdCap Id} {t : KBucketsTable Id Val}
    {now : Nat} {x : Id} {n : Nat} {b : KBucket Id Val}
    {pn : Node Id Val} {instant : Nat} (v : Val)
    (hb : t.bucket_num P x = some n) (hg : t.tables.get? n = some b)
    (hpend : b.pending_node = some (pn, instant))
    (hyoung : now - instant < t.ping_timeout)
    (hlen : ¬ b.nodes.length < MAX_NODES_PER_BUCKET)
    (hfresh : ∀ nd ∈ b.nodes, nd.id ≠ x) :
    t.update P now x v = some (UpdateOutcome.Discarded, t) := by
  have hno : ¬ t.ping_timeout ≤ now - instant := by omega
  have hf : b.flush t.ping_timeout now = some b := by
    simp [KBucket.flush, hpend, hno]
  have hub := updateBucket_discarded v hf hfresh hlen hpend
  have hres := update_eq_of_bucket hb hg hub
  rw [set_get?_eq _ _ _ hg] at hres
  exact hres

theorem updateMany_added_phase [DecidableEq Id] {P : PeerIdCap Id} :
    ∀ (trips : List (Nat × Id × Val)) (t : KBucketsTable Id Val) (n : Nat)
      (b : KBucket Id Val),
      (∀ p ∈ trips, t.bucket_num P p.2.1 = some n) →
      t.tables.get? n = some b → b.pending_node = none →
      b.nodes.length + trips.length ≤ MAX_NODES_PER_BUCKET →
      (b.nodes.map Node.id ++ trips.map (fun p => p.2.1)).Nodup →
      ∃ t2 lu,
        updateMany P t trips =
          some (List.replicate trips.length UpdateOutcome.Added, t2) ∧
        t2.tables.get? n = some
          { nodes := b.nodes ++ trips.map (fun p => { id := p.2.1, value := p.2.2 })
            pending_node := none
            last_update := lu } ∧
        t2.my_id = t.my_id ∧ t2.ping_timeout = t.ping_timeout := by
  intro trips
  induction trips with
  | nil =>
    intro t n b hmap hg hpend hlen hnodup
    refine ⟨t, b.last_update, rfl, ?_, rfl, rfl⟩
    simp only [List.map_nil, List.append_nil]
    rw [← hpend]
    exact hg
  | cons p rest ih =>
    obtain ⟨now, x, v⟩ := p
    intro t n b hmap hg hpend hlen hnodup
    have hmapx : t.bucket_num P x = some n := hmap _ (List.mem_cons_self _ _)
    have hfresh : ∀ nd ∈ b.nodes, nd.id ≠ x := by
      intro nd hnd hc
      rw [List.nodup_append] at hnodup
      exact hnodup.2.2 (List.mem_map_of_mem Node.id hnd) (by simp [hc])
    have hlenb : b.nodes.length < MAX_NODES_PER_BUCKET := by
      simp only [List.length_cons] at hlen
      omega
    have hstep := update_added_step now v hmapx hg hpend hlenb hfresh
    have hg1 : (t.tables.set n
        { nodes := b.nodes ++ [{ id := x, value := v }]
          pending_node := none
          last_update := now }).get? n = some
        { nodes := b.nodes ++ [{ id := x, value := v }]
          pending_node := none
          last_update := now } :=
      get?_set_self _ _ _ (get?_some_lt hg)
    have hmap1 : ∀ q ∈ rest,
        KBucketsTable.bucket_num
          { t with tables := (t.tables.set n
            { nodes := b.nodes ++ [{ id := x, value := v }]
              pending_node := none
              last_update := now }) } P q.2.1 = some n := by
      intro q hq
      exact hmap q (List.mem_cons_of_mem _ hq)
    have hlen1 : (b.nodes ++ [({ id := x, value := v } : Node Id Val)]).length + rest.length ≤
        MAX_NODES_PER_BUCKET := by
      simp only [List.length_append, List.length_cons, List.length_nil] at hlen ⊢
      omega
    have hnodup1 : ((b.nodes ++ [({ id := x, value := v } : Node Id Val)]).map Node.id ++
        rest.map (fun p => p.2.1)).Nodup := by
      simp only [List.map_append, List.map_cons, List.map_nil, List.append_assoc,
        List.singleton_append]
      simpa using hnodup
    obtain ⟨t2, lu, hrun, hg2, hmy, hping⟩ := ih _ n _ hmap1 hg1 rfl hlen1 hnodup1
    refine ⟨t2, lu, ?_, ?_, hmy, hping⟩
    · simp only [updateMany, hstep, hrun, List.length_cons, List.replicate_succ]
    · simpa [List.append_assoc] using hg2

/-- C3: capacity and pending protocol.  On a bucket that starts empty
with a free pending slot, inserting MAX_NODES_PER_BUCKET distinct
identifiers all routed to that bucket yields Added every time and fills
the bucket to exactly MAX_NODES_PER_BUCKET contacts in arrival order; a
further distinct identifier yields NeedPing carrying the front (oldest)
contact identifier, with the stored contacts unchanged and the newcomer
parked in the pending slot; while that pending contact has not yet
timed out, one more distinct identifier yields Discarded and the table
is not mutated at all. -/
theorem c3_capacity_pending_protocol [DecidableEq Id] {P : PeerIdCap Id}
    {t : KBucketsTable Id Val} {n : Nat} {b : KBucket Id Val} {y z : Id}
    (trips : List (Nat × Id × Val)) (vy vz : Val) (now1 now2 : Nat)
    (hg : t.tables.get? n = some b) (hempty : b.nodes = [])
    (hpend : b.pending_node = none)
    (hlentrips : trips.length = MAX_NODES_PER_BUCKET)
    (hmap : ∀ p ∈ trips, t.bucket_num P p.2.1 = some n)
    (hnodup : (trips.map (fun p => p.2.1)).Nodup)
    (hymap : t.bucket_num P y = some n) (hyfresh : y ∉ trips.map (fun p => p.2.1))
    (hzmap : t.bucket_num P z = some n) (hzfresh : z ∉ trips.map (fun p => p.2.1))
    (hyoung : now2 - now1 < t.ping_timeout) :
    ∃ t1 t2 first lu,
      updateMany P t trips =
        some (List.replicate MAX_NODES_PER_BUCKET UpdateOutcome.Added, t1) ∧
      t1.tables.get? n = some
        { nodes := trips.map (fun p => { id := p.2.1, value := p.2.2 })
          pending_node := none
          last_update := lu } ∧
      (trips.map (fun p => ({ id := p.2.1, value := p.2.2 } : Node Id Val))).length =
        MAX_NODES_PER_BUCKET ∧
      (trips.map (fun p => p.2.1)).head? = some first ∧
      t1.update P now1 y vy = some (UpdateOutcome.NeedPing first, t2) ∧
      t2.tables.get? n = some
        { nodes := trips.map (fun p => { id := p.2.1, value := p.2.2 })
          pending_node := some ({ id := y, value := vy }, now1)
          last_update := lu } ∧
      t2.update P now2 z vz = some (UpdateOutcome.Discarded, t2) := by
  obtain ⟨t1, lu, hrun, hg1, hmy1, hping1⟩ :=
    updateMany_added_phase trips t n b hmap hg hpend
      (by simp [hempty, hlentrips]) (by simpa [hempty] using hnodup)
  rw [hlentrips] at hrun
  have hg1b : t1.tables.get? n = some
      { nodes := trips.map (fun p => { id := p.2.1, value := p.2.2 })
        pending_node := none
        last_update := lu } := by
    simpa [hempty] using hg1
  obtain ⟨p0, rest, htr⟩ : ∃ p0 rest, trips = p0 :: rest := by
    cases htr : trips with
    | nil =>
      rw [htr] at hlentrips
      simp [MAX_NODES_PER_BUCKET] at hlentrips
    | cons p0 rest => exact ⟨p0, rest, rfl⟩
  have hlennodes : (trips.map (fun p => ({ id := p.2.1, value := p.2.2 } : Node Id Val))).length =
      MAX_NODES_PER_BUCKET := by
    simp [hlentrips]
  have hby : t1.bucket_num P y = some n := by
    unfold KBucketsTable.bucket_num at hymap ⊢
    rw [hmy1]
    exact hymap
  have hfreshy : ∀ nd ∈ trips.map (fun p => ({ id := p.2.1, value := p.2.2 } : Node Id Val)),
      nd.id ≠ y := by
    intro nd hnd hc
    obtain ⟨p, hp, hmk⟩ := List.mem_map.mp hnd
    apply hyfresh
    rw [← hc, ← hmk]
    exact List.mem_map_of_mem _ hp
  have hnfull : ¬ (trips.map (fun p => ({ id := p.2.1, value := p.2.2 } : Node Id Val))).length <
      MAX_NODES_PER_BUCKET := by
    rw [hlennodes]
    omega
  have hnodes1 : trips.map (fun p => ({ id := p.2.1, value := p.2.2 } : Node Id Val)) =
      ({ id := p0.2.1, value := p0.2.2 } : Node Id Val) ::
        rest.map (fun p => ({ id := p.2.1, value := p.2.2 } : Node Id Val)) := by
    rw [htr]
    rfl
  have hstep2 := update_needping_step now1 vy hby hg1b rfl hnodes1 hnfull hfreshy
  have hg2 := get?_set_self t1.tables n
    { nodes := trips.map (fun p => { id := p.2.1, value := p.2.2 })
      pending_node := some ({ id := y, value := vy }, now1)
      last_update := lu } (get?_some_lt hg1b)
  have hbz : KBucketsTable.bucket_num
      { t1 with tables := (t1.tables.set n
        { nodes := trips.map (fun p => { id := p.2.1, value := p.2.2 })
          pending_node := some ({ id := y, value := vy }, now1)
          last_update := lu }) } P z = some n := by
    unfold KBucketsTable.bucket_num at hzmap ⊢
    show checkedSub (P.num_bits - 1) (P.leading_zeros (P.distance_with t1.my_id z)) = some n
    rw [hmy1]
    exact hzmap
  have hfreshz : ∀ nd ∈ trips.map (fun p => ({ id := p.2.1, value := p.2.2 } : Node Id Val)),
      nd.id ≠ z := by
    intro nd hnd hc
    obtain ⟨p, hp, hmk⟩ := List.mem_map.mp hnd
    apply hzfresh
    rw [← hc, ← hmk]
    exact List.mem_map_of_mem _ hp
  have hyoung2 : now2 - now1 <
      (KBucketsTable.ping_timeout
        { t1 with tables := (t1.tables.set n
          { nodes := trips.map (fun p => { id := p.2.1, value := p.2.2 })
            pending_node := some ({ id := y, value := vy }, now1)
            last_update := lu }) } : Nat) := by
    show now2 - now1 < t1.ping_timeout
    rw [hping1]
    exact hyoung
  have hstep3 := update_discarded_step vz hbz hg2 rfl hyoung2 hnfull hfreshz
  refine ⟨t1, _, p0.2.1, lu, hrun, hg1b, hlennodes, by rw [htr]; rfl, hstep2, hg2, hstep3⟩

/-- Concrete 4-bit capability for concrete runs: identifiers are Fin 16,
distance is xor of the underlying values, leading zeros are counted in a
4-bit field. -/
def P4 : PeerIdCap (Fin 16) :=
  { distance_with := fun a b => a.val ^^^ b.val
    num_bits := 4
    leading_zeros := fun d =>
      if 8 ≤ d then 0 else if 4 ≤ d then 1 else if 2 ≤ d then 2
      else if 1 ≤ d then 3 else 4 }

theorem lawful_P4 : LawfulPeerIdCap P4 := by
  unfold LawfulPeerIdCap
  decide

/-- Table reached from a fresh 4-bit table (local id 0, ping timeout
100, created at instant 0) by adding id 1 (bucket 0) and id 3
(bucket 1), both at instant 0. -/
def tC1 : KBucketsTable (Fin 16) Nat :=
  { my_id := 0
    tables :=
      [ { nodes := [{ id := 1, value := 7 }], pending_node := none, last_update := 0 },
        { nodes := [{ id := 3, value := 8 }], pending_node := none, last_update := 0 },
        { nodes := [], pending_node := none, last_update := 0 },
        { nodes := [], pending_node := none, last_update := 0 } ]
    ping_timeout := 100 }

/-- Intermediate table after the first of the two updates building tC1. -/
def tC1a : KBucketsTable (Fin 16) Nat :=
  { my_id := 0
    tables :=
      [ { nodes := [{ id := 1, value := 7 }], pending_node := none, last_update := 0 },
        { nodes := [], pending_node := none, last_update := 0 },
        { nodes := [], pending_node := none, last_update := 0 },
        { nodes := [], pending_node := none, last_update := 0 } ]
    ping_timeout := 100 }

theorem tC1_reachable : Reachable P4 tC1 :=
  Reachable.step
    (Reachable.step (Reachable.init 0 100 0)
      (Step.update (KBucketsTable.new P4 0 100 0) 0 1 7 UpdateOutcome.Added tC1a
        (by decide)))
    (Step.update tC1a 0 3 8 UpdateOutcome.Added tC1 (by decide))

/-- C1: the comparator of find_closest sorts by DESCENDING distance.  At
the reachable table tC1 (ids 1 and 3 stored, local id 0), the query for
target 0 returns the stored ids in the order 3, 1, although id 3 is
strictly farther from the target than id 1: the claimed ascending,
closest-first order would be 1, 3. -/
theorem c1_find_closest_descending_at_input :
    ((KBucketsTable.new P4 0 100 0 : KBucketsTable (Fin 16) Nat).update P4 0 1 7).bind
        (fun p => p.2.update P4 0 3 8) = some (UpdateOutcome.Added, tC1) ∧
    (tC1.find_closest P4 0 0).map Prod.fst = some [3, 1] ∧
    P4.distance_with 1 0 < P4.distance_with 3 0 := by
  refine ⟨by decide, by decide, by decide⟩

/-- C7: at the reachable table tC1 and target 1 the combined output of
find_closest_with_self is the local id 0 followed by 3 followed by 1,
whose distances to the target are 1, 2, 0: the adjacent pair (3, 1) has
strictly decreasing distance, so the output is not ordered by
non-decreasing distance as claimed.  The underlying cause is the
descending sort inside find_closest. -/
theorem c7_with_self_not_sorted_at_input :
    ((KBucketsTable.new P4 0 100 0 : KBucketsTable (Fin 16) Nat).update P4 0 1 7).bind
        (fun p => p.2.update P4 0 3 8) = some (UpdateOutcome.Added, tC1) ∧
    (tC1.find_closest_with_self P4 0 1).map Prod.fst = some [0, 3, 1] ∧
    P4.distance_with 1 1 < P4.distance_with 3 1 := by
  refine ⟨by decide, by decide, by decide⟩

/-- C2 (counterexample): at the reachable table tC1 the first view
yielded by the buckets iterator is the bucket of index 0 (holding one
node), while the bucket of index num_bits - 1 = 3, whose flush is a
no-op here, is empty: the iterator cannot be yielding the bucket at
index num_bits - 1 first, it walks the indices upward from 0. -/
theorem c2_counterexample_first_view :
    (tC1.buckets 0).map (fun p => p.1.head?) =
      some (some { nodes := [{ id := 1, value := 7 }], pending_node := none,
                   last_update := 0 }) ∧
    (tC1.tables.get? 3).bind (fun b => b.flush tC1.ping_timeout 0) =
      some { nodes := [], pending_node := none, last_update := 0 } ∧
    ({ nodes := [{ id := 1, value := 7 }], pending_node := none,
       last_update := 0 } : KBucket (Fin 16) Nat) ≠
      { nodes := [], pending_node := none, last_update := 0 } := by
  refine ⟨by decide, by decide, by decide⟩

theorem c2_amended_witness :
    tC1.buckets 0 = some (tC1.tables, tC1) ∧
    (tC1.tables.length = tC1.tables.length ∧
     (∀ i, tC1.tables.get? i =
       (tC1.tables.get? i).bind (fun b => b.flush tC1.ping_timeout 0)) ∧
     tC1 = { tC1 with tables := tC1.tables }) :=
  ⟨by decide, c2_buckets_iteration_order tC1 0 tC1.tables tC1 (by decide)⟩

def bC4 : KBucket (Fin 16) Nat :=
  { nodes := [{ id := 1, value := 10 }, { id := 3, value := 11 }]
    pending_node := some ({ id := 5, value := 12 }, 100)
    last_update := 7 }

def bC4n : KBucket (Fin 16) Nat :=
  { nodes := [{ id := 1, value := 10 }], pending_node := none, last_update := 7 }

theorem c4_witness :
    bC4.flush 100 250 =
      some { nodes := bC4.nodes.tail ++ [{ id := 5, value := 12 }],
             pending_node := none, last_update := bC4.last_update } ∧
    bC4.flush 100 150 = some bC4 ∧
    bC4n.flush 100 250 = some bC4n := by
  refine ⟨?_, ?_, ?_⟩
  · exact ((c4_flush_spec bC4 100 250).1 { id := 5, value := 12 } 100 rfl (by decide)
      (by decide) (by decide)).1
  · exact (c4_flush_spec bC4 100 150).2.1 { id := 5, value := 12 } 100 rfl (by decide)
  · exact (c4_flush_spec bC4n 100 250).2.2 rfl

def bC5 : KBucket (Fin 16) Nat :=
  { nodes := [{ id := 3, value := 8 }], pending_node := none, last_update := 0 }

theorem c5_witness :
    ∃ nd, bC5.nodes.get? 0 = some nd ∧ nd.id = 3 ∧
      tC1.update P4 5 3 99 =
        some (UpdateOutcome.Refreshed nd.value,
          { tC1 with tables := (tC1.tables.set 1
            { nodes := removeAt bC5.nodes 0 ++ [{ id := 3, value := 99 }]
              pending_node := if 0 = 0 then none else bC5.pending_node
              last_update := 5 }) }) :=
  c5_refresh_spec (by decide) (show tC1.tables.get? 1 = some bC5 by decide)
    (show bC5.flush tC1.ping_timeout 5 = some bC5 by decide) (by decide) (by decide)

theorem c6_witness :
    0 < P4.num_bits ∧
    P4.num_bits ≤ P4.leading_zeros (P4.distance_with tC1.my_id tC1.my_id) ∧
    tC1.update P4 9 tC1.my_id 55 = some (UpdateOutcome.FailSelfUpdate, tC1) :=
  ⟨by decide, by decide, c6_self_update_rejected P4 tC1 9 55 (by decide) (by decide)⟩

theorem c8_witness :
    (∀ x, x ≠ tC1.my_id →
      tC1.bucket_num P4 x =
        some (P4.num_bits - 1 - P4.leading_zeros (P4.distance_with tC1.my_id x))) ∧
    (∀ now x v t2, tC1.update P4 now x v = some (UpdateOutcome.Added, t2) →
      ∃ n b b2, tC1.bucket_num P4 x = some n ∧ tC1.tables.get? n = some b ∧
        t2.tables.get? n = some b2 ∧ b2.nodes.length = b.nodes.length + 1) ∧
    (Reachable P4 tC1 → ∀ i b nd, tC1.tables.get? i = some b → nd ∈ b.nodes →
      P4.leading_zeros (P4.distance_with tC1.my_id nd.id) = P4.num_bits - 1 - i) :=
  c8_bucket_placement P4 tC1 lawful_P4

theorem c9_witness :
    flushBuckets tC1.ping_timeout 0 tC1.tables = some tC1.tables ∧
    List.Perm ([3, 1] : List (Fin 16)) (collectFresh tC1.ping_timeout 0 tC1.tables) ∧
    tC1.my_id ∉ ([3, 1] : List (Fin 16)) :=
  c9_find_closest_fresh_ids tC1_reachable lawful_P4
    (show tC1.find_closest P4 0 0 = some ([3, 1], tC1) by decide)

def bC10 : KBucket (Fin 16) Nat :=
  { nodes := [{ id := 1, value := 7 }], pending_node := none, last_update := 0 }

theorem c10_witness :
    tC1.tables.get? 0 = some bC10 ∧
    (bC10.pending_node.isSome → bC10.nodes.length = MAX_NODES_PER_BUCKET) ∧
    (∀ now, (bC10.flush tC1.ping_timeout now).isSome) :=
  ⟨by decide,
    (c10_pending_only_when_full tC1_reachable 0 bC10 (by decide)).1,
    (c10_pending_only_when_full tC1_reachable 0 bC10 (by decide)).2⟩

/-- Concrete 6-bit capability: identifiers are Fin 64, so one bucket can
absorb the full capacity of twenty distinct identifiers (bucket 5 holds
the 32 identifiers at distance at least 32 from the local id 0). -/
def P6 : PeerIdCap (Fin 64) :=
  { distance_with := fun a b => a.val ^^^ b.val
    num_bits := 6
    leading_zeros := fun d =>
      if 32 ≤ d then 0 else if 16 ≤ d then 1 else if 8 ≤ d then 2
      else if 4 ≤ d then 3 else if 2 ≤ d then 4 else if 1 ≤ d then 5 else 6 }

/-- Fresh 6-bit table: local id 0, ping timeout 1000, created at 0. -/
def t6 : KBucketsTable (Fin 64) Nat := KBucketsTable.new P6 0 1000 0

/-- Twenty distinct identifiers 32..51, all routed to bucket 5 of t6,
inserted at instant 0 with values 0..19. -/
def trips20 : List (Nat × Fin 64 × Nat) :=
  [ (0, 32, 0), (0, 33, 1), (0, 34, 2), (0, 35, 3), (0, 36, 4),
    (0, 37, 5), (0, 38, 6), (0, 39, 7), (0, 40, 8), (0, 41, 9),
    (0, 42, 10), (0, 43, 11), (0, 44, 12), (0, 45, 13), (0, 46, 14),
    (0, 47, 15), (0, 48, 16), (0, 49, 17), (0, 50, 18), (0, 51, 19) ]

theorem c3_witness :
    ∃ t1 t2 first lu,
      updateMany P6 t6 trips20 =
        some (List.replicate MAX_NODES_PER_BUCKET UpdateOutcome.Added, t1) ∧
      t1.tables.get? 5 = some
        { nodes := trips20.map (fun p => { id := p.2.1, value := p.2.2 })
          pending_node := none
          last_update := lu } ∧
      (trips20.map (fun p => ({ id := p.2.1, value := p.2.2 } : Node (Fin 64) Nat))).length =
        MAX_NODES_PER_BUCKET ∧
      (trips20.map (fun p => p.2.1)).head? = some first ∧
      t1.update P6 0 52 100 = some (UpdateOutcome.NeedPing first, t2) ∧
      t2.tables.get? 5 = some
        { nodes := trips20.map (fun p => { id := p.2.1, value := p.2.2 })
          pending_node := some ({ id := 52, value := 100 }, 0)
          last_update := lu } ∧
      t2.update P6 0 53 200 = some (UpdateOutcome.Discarded, t2) := by
  have hg : t6.tables.get? 5 =
      some { nodes := [], pending_node := none, last_update := 0 } := by decide
  exact c3_capacity_pending_protocol trips20 100 200 0 0 hg rfl rfl (by decide)
    (by decide) (by decide) (by decide) (by decide) (by decide) (by decide) (by decide)

end KBuckets
